import Mathlib

/-!
Shallow embedding of the kubetag repository (github.com/huseyinbabal/kubetag).

The embedding follows the Go source:
* `pkg/k8s/informer.go`: `parseImageFull`, `extractImagesFromSpec`,
  `hasImageChanged`, `shouldWatchNamespace`, `handlePodSpecChange`;
* `internal/repository/image_repository.go`: `UpsertImageTag`,
  `DeleteImageTag`, `GetAllImages`, `GetImageTagHistory`;
* `internal/service/image_service.go`: `HandleImageEvent`;
* `internal/models/image.go`: the `Image` / `ImageTag` rows and response
  shapes.

Conventions: Go `time.Time` values are modelled as `Nat` instants,
`gorm.DeletedAt` as `Option Nat`, the database as in-memory lists of rows
in insertion (primary-key) order.  `fmt.Sprintf`-style key strings used by
the Go grouping maps are reproduced verbatim (including the `"|"`
separator), and Go map semantics are modelled by association lists keyed
by those strings.
-/

namespace Kubetag

/-! ### Image reference parser (pkg/k8s/informer.go, parseImageFull) -/

/-- Result of `parseImageFull`: the `(name, tag, repository)` triple the Go
function returns. -/
structure ParsedImage where
  name : String
  tag : String
  repository : String
deriving DecidableEq

/-- Go `strings.Split` on a single-character separator, over `List Char`.
`strings.Split("", sep) = [""]`, and every separator occurrence opens a new
segment. -/
def goSplit (l : List Char) (sep : Char) : List (List Char) :=
  match l with
  | [] => [[]]
  | x :: xs =>
    if x = sep then [] :: goSplit xs sep
    else
      match goSplit xs sep with
      | [] => [[x]]
      | y :: ys => (x :: y) :: ys

/-- The lower half of `parseImageFull`: given `imagePart` (the input up to
the tag separator) and the already-determined `tag`, split on `/` and
derive `name` and `repository` exactly as the Go function does. -/
def parseNameRepo (imagePart : List Char) (tag : String) : ParsedImage :=
  let slashParts := goSplit imagePart '/'
  if slashParts.length = 1 then
    -- Just image name, e.g. "nginx"
    { name := String.mk (slashParts.headD []), tag := tag, repository := "docker.io" }
  else if slashParts.length = 2 then
    let first := slashParts.headD []
    let second := slashParts.getD 1 []
    if first.contains '.' then
      -- It is a registry, e.g. "gcr.io/nginx"
      { name := String.mk second, tag := tag, repository := String.mk first }
    else
      -- It is a namespace, e.g. "library/nginx"
      { name := String.mk second, tag := tag,
        repository := "docker.io/" ++ String.mk first }
  else
    -- Full path with registry, e.g. "gcr.io/project/app"
    { name := String.mk (slashParts.getLastD []), tag := tag,
      repository := String.intercalate "/" (slashParts.dropLast.map String.mk) }

/-- Go `parseImageFull`: split on `:`; the second segment is the tag only
when there are exactly two segments (default tag `"latest"`), then derive
name and repository from the first segment. -/
def parseImageFull (image : String) : ParsedImage :=
  let parts := goSplit image.data ':'
  let imagePart := parts.headD []
  let tag := if parts.length = 2 then String.mk (parts.getD 1 []) else "latest"
  parseNameRepo imagePart tag

/-! ### goSplit lemmas -/

theorem goSplit_ne_nil (l : List Char) (sep : Char) : goSplit l sep ≠ [] := by
  cases l with
  | nil => simp [goSplit]
  | cons x xs =>
    simp only [goSplit]
    split
    · simp
    · split <;> simp

theorem goSplit_length (l : List Char) (sep : Char) :
    (goSplit l sep).length = l.count sep + 1 := by
  induction l with
  | nil => simp [goSplit]
  | cons x xs ih =>
    simp only [goSplit]
    by_cases hx : x = sep
    · simp [hx, List.count_cons, ih]
    · simp only [if_neg hx]
      cases hsplit : goSplit xs sep with
      | nil => exact absurd hsplit (goSplit_ne_nil xs sep)
      | cons y ys =>
        have := ih
        rw [hsplit] at this
        simp only [List.length_cons] at this ⊢
        rw [List.count_cons]
        simp [hx, ← this]

theorem goSplit_head (l : List Char) (sep : Char) :
    (goSplit l sep).headD [] = l.takeWhile (fun c => c ≠ sep) := by
  induction l with
  | nil => simp [goSplit]
  | cons x xs ih =>
    simp only [goSplit]
    by_cases hx : x = sep
    · simp [hx, List.takeWhile_cons]
    · simp only [if_neg hx]
      cases hsplit : goSplit xs sep with
      | nil => exact absurd hsplit (goSplit_ne_nil xs sep)
      | cons y ys =>
        rw [hsplit] at ih
        simp only [List.headD_cons] at ih
        simp only [ne_eq, decide_not] at ih
        simp [List.takeWhile_cons, hx, ← ih]

theorem goSplit_of_not_mem (l : List Char) (sep : Char) (h : sep ∉ l) :
    goSplit l sep = [l] := by
  induction l with
  | nil => simp [goSplit]
  | cons x xs ih =>
    simp only [List.mem_cons, not_or] at h
    have hx : ¬ x = sep := fun hh => h.1 hh.symm
    simp [goSplit, hx, ih h.2]

/-! ### Inventory store data model (internal/models/image.go)

`namespace` is a Lean keyword, so the `Namespace` column is named `nspace`
throughout; `gorm.DeletedAt` becomes `Option Nat` (`none` = zero value =
not deleted). -/

/-- Row of the `images` table (`models.Image`).  The `ImageTags` preload
relation is represented by `imageId` references from tag rows. -/
structure ImageRow where
  id : Nat
  createdAt : Nat
  updatedAt : Nat
  deletedAt : Option Nat
  name : String
  repository : String
  fullName : String
deriving DecidableEq

/-- Row of the `image_tags` table (`models.ImageTag`). -/
structure ImageTagRow where
  id : Nat
  createdAt : Nat
  updatedAt : Nat
  deletedAt : Option Nat
  imageId : Nat
  tag : String
  firstSeen : Nat
  lastSeen : Nat
  resourceType : String
  resourceName : String
  nspace : String
  containerName : String
deriving DecidableEq

/-- The database state: both tables in primary-key (insertion) order plus
the id sequences. -/
structure Store where
  images : List ImageRow
  imageTags : List ImageTagRow
  nextImageId : Nat
  nextTagId : Nat
deriving DecidableEq

/-- The freshly migrated, empty database. -/
def emptyStore : Store := { images := [], imageTags := [], nextImageId := 1, nextTagId := 1 }

/-- The GORM query condition of the `FirstOrCreate` in `UpsertImageTag`:
`Where("full_name = ?", fullName)` plus the non-zero fields of the struct
condition (`Name`, `Repository`, `FullName`), under the default
soft-delete scope. -/
def imageCond (imageName repository fullName : String) (i : ImageRow) : Bool :=
  decide (i.fullName = fullName ∧ i.name = imageName ∧ i.repository = repository
    ∧ i.deletedAt = none)

/-- `FirstOrCreate` of the owning `Image`: return the first matching row,
or append a newly created one. -/
def firstOrCreateImage (s : Store) (imageName repository fullName : String) (now : Nat) :
    ImageRow × Store :=
  match s.images.find? (imageCond imageName repository fullName) with
  | some i => (i, s)
  | none =>
    let img : ImageRow :=
      { id := s.nextImageId, createdAt := now, updatedAt := now, deletedAt := none,
        name := imageName, repository := repository, fullName := fullName }
    (img, { s with images := s.images ++ [img], nextImageId := s.nextImageId + 1 })

/-- The conflict target of the `ON CONFLICT` clause in `UpsertImageTag`:
same `(image_id, tag, resource_type, resource_name, namespace,
container_name)` tuple.  The arbitering index is the non-partial unique
index `idx_image_tag_resource` declared by the `uniqueIndex` struct tags
on `models.ImageTag` (the current `Migrate` drops the older partial
`idx_image_tag_unique`, and GORM emits no conflict-target `WHERE`
predicate, so no partial index could arbiter) — hence soft-deleted rows
conflict too. -/
def conflictCond (imageId : Nat) (tag resourceType resourceName nspace containerName : String)
    (r : ImageTagRow) : Bool :=
  decide (r.imageId = imageId ∧ r.tag = tag ∧ r.resourceType = resourceType
    ∧ r.resourceName = resourceName ∧ r.nspace = nspace
    ∧ r.containerName = containerName)

/-- A non-deleted row carrying the identity tuple — the notion the §3
uniqueness invariant and the idempotency property count. -/
def activeCond (imageId : Nat) (tag resourceType resourceName nspace containerName : String)
    (r : ImageTagRow) : Bool :=
  decide (r.imageId = imageId ∧ r.tag = tag ∧ r.resourceType = resourceType
    ∧ r.resourceName = resourceName ∧ r.nspace = nspace
    ∧ r.containerName = containerName ∧ r.deletedAt = none)

/-- `UpsertImageTag` (internal/repository/image_repository.go): get or
create the owning image by `fullName = repository + "/" + imageName`, then
insert the tag row with `firstSeen = lastSeen = now`, or — on conflict
with an existing row for the tuple — update only `last_seen` and
`updated_at` of the conflicting row.  `freshTagRow` is the
`models.ImageTag` value built before the `ON CONFLICT` clause applies:
`FirstSeen = LastSeen = now`. -/
def freshTagRow (imageId : Nat)
    (tag resourceType resourceName nspace containerName : String) (now rowId : Nat) :
    ImageTagRow :=
  { id := rowId, createdAt := now, updatedAt := now, deletedAt := none,
    imageId := imageId, tag := tag, firstSeen := now, lastSeen := now,
    resourceType := resourceType, resourceName := resourceName,
    nspace := nspace, containerName := containerName }

/-- `UpsertImageTag` itself; see `freshTagRow` above for the insert value.
The conflict branch fires whenever any row — soft-deleted or not — carries
the tuple, and assigns only `last_seen` and `updated_at` of the
conflicting row (`deleted_at` untouched, so a deleted row stays deleted). -/
def upsertImageTag (s : Store)
    (imageName repository tag resourceType resourceName nspace containerName : String)
    (now : Nat) : Store :=
  let fullName := repository ++ "/" ++ imageName
  let res := firstOrCreateImage s imageName repository fullName now
  let img := res.1
  let s1 := res.2
  if s1.imageTags.any (conflictCond img.id tag resourceType resourceName nspace containerName)
  then
    { s1 with imageTags := s1.imageTags.map (fun r =>
        if conflictCond img.id tag resourceType resourceName nspace containerName r
        then { r with lastSeen := now, updatedAt := now } else r) }
  else
    { s1 with
      imageTags := s1.imageTags ++
        [freshTagRow img.id tag resourceType resourceName nspace containerName now s1.nextTagId],
      nextTagId := s1.nextTagId + 1 }

/-- The row condition of `DeleteImageTag`: the three-part resource key plus
the implicit GORM soft-delete scope (`deleted_at IS NULL`). -/
def deleteCond (resourceType resourceName nspace : String) (r : ImageTagRow) : Bool :=
  decide (r.resourceType = resourceType ∧ r.resourceName = resourceName
    ∧ r.nspace = nspace ∧ r.deletedAt = none)

/-- `DeleteImageTag`: GORM soft delete — set `deleted_at = now` on every
non-deleted row matching `(resource_type, resource_name, namespace)`,
regardless of tag or container; zero matching rows is not an error. -/
def deleteImageTag (s : Store) (resourceType resourceName nspace : String) (now : Nat) :
    Store :=
  { s with imageTags := s.imageTags.map (fun r =>
      if deleteCond resourceType resourceName nspace r
      then { r with deletedAt := some now } else r) }

/-! ### Store operation sequences and the uniqueness invariant -/

/-- One Store mutation, tagged with the wall-clock instant `time.Now()`
read inside the repository call. -/
inductive StoreOp where
  | upsertOp (imageName repository tag resourceType resourceName nspace containerName : String)
      (now : Nat)
  | deleteOp (resourceType resourceName nspace : String) (now : Nat)
deriving DecidableEq

/-- Apply one Store operation. -/
def applyOp (s : Store) : StoreOp → Store
  | .upsertOp imageName repository tag resourceType resourceName nspace containerName now =>
      upsertImageTag s imageName repository tag resourceType resourceName nspace containerName now
  | .deleteOp resourceType resourceName nspace now =>
      deleteImageTag s resourceType resourceName nspace now

/-- Run a sequence of Store operations from the empty store. -/
def runOps (ops : List StoreOp) : Store := ops.foldl applyOp emptyStore

/-- Number of non-deleted rows carrying a given identity tuple. -/
def activeCount (l : List ImageTagRow)
    (imageId : Nat) (tag resourceType resourceName nspace containerName : String) : Nat :=
  l.countP (activeCond imageId tag resourceType resourceName nspace containerName)

/-- The §3 uniqueness invariant: every identity tuple is carried by at most
one non-deleted row. -/
def UniqueActive (s : Store) : Prop :=
  ∀ imageId tag resourceType resourceName nspace containerName,
    activeCount s.imageTags imageId tag resourceType resourceName nspace containerName ≤ 1

/-! ### Query engine (GetAllImages / GetImageTagHistory) -/

/-- API row `models.ImageInfo`.  The Go code formats `firstSeen`/`lastSeen`
as RFC3339 strings; the instants themselves are kept here. -/
structure ImageInfo where
  name : String
  tag : String
  resourceType : String
  resourceName : String
  nspace : String
  containers : List String
  firstSeen : Nat
  lastSeen : Nat
deriving DecidableEq

/-- `models.ImageTagDetails`. -/
structure ImageTagDetails where
  tag : String
  firstSeen : Nat
  lastSeen : Nat
  resourceType : String
  resourceName : String
  nspace : String
  container : String
  active : Bool
deriving DecidableEq

/-- `models.ImageTagHistory`. -/
structure ImageTagHistory where
  imageName : String
  tags : List ImageTagDetails
deriving DecidableEq

/-- The `Preload("Image")` association: the image row referenced by
`image_id` under the default soft-delete scope; a dangling reference
preloads the zero-value `Image` (empty name). -/
def imageNameOf (s : Store) (imageId : Nat) : String :=
  match s.images.find? (fun i => decide (i.id = imageId ∧ i.deletedAt = none)) with
  | some i => i.name
  | none => ""

/-- The row filter of `GetAllImages`: `deleted_at IS NULL`, plus
`namespace = ?` when a namespace is given. -/
def inventoryCond (nspace : String) (r : ImageTagRow) : Bool :=
  decide (r.deletedAt = none ∧ (nspace = "" ∨ r.nspace = nspace))

/-- Go `fmt.Sprintf("%s|%s|%s|%s", name, resourceType, resourceName,
namespace)` — the `latestTagMap` key. -/
def resourceKey (s : Store) (r : ImageTagRow) : String :=
  imageNameOf s r.imageId ++ "|" ++ r.resourceType ++ "|" ++ r.resourceName ++ "|" ++ r.nspace

/-- Go `fmt.Sprintf("%s|%s|%s|%s|%s", name, tag, resourceType,
resourceName, namespace)` — the `imageMap` key. -/
def imageKey (s : Store) (r : ImageTagRow) : String :=
  imageNameOf s r.imageId ++ "|" ++ r.tag ++ "|" ++ r.resourceType ++ "|" ++ r.resourceName
    ++ "|" ++ r.nspace

/-- One step of building `latestTagMap`: keep, per resource key, the row
with the strictly larger `lastSeen` (`it.LastSeen.After(existing.LastSeen)`). -/
def updateLatest (acc : List (String × ImageTagRow)) (key : String) (r : ImageTagRow) :
    List (String × ImageTagRow) :=
  match acc with
  | [] => [(key, r)]
  | (k, e) :: rest =>
    if k = key then
      if e.lastSeen < r.lastSeen then (k, r) :: rest else (k, e) :: rest
    else (k, e) :: updateLatest rest key r

/-- One step of building `imageMap`: append the container name to an
existing row of the same image key, or start a new `ImageInfo`. -/
def addContainer (s : Store) (acc : List (String × ImageInfo)) (key : String)
    (r : ImageTagRow) : List (String × ImageInfo) :=
  match acc with
  | [] =>
    [(key, { name := imageNameOf s r.imageId, tag := r.tag,
             resourceType := r.resourceType, resourceName := r.resourceName,
             nspace := r.nspace, containers := [r.containerName],
             firstSeen := r.firstSeen, lastSeen := r.lastSeen })]
  | (k, info) :: rest =>
    if k = key then (k, { info with containers := info.containers ++ [r.containerName] }) :: rest
    else (k, info) :: addContainer s rest key r

/-- `GetAllImages`: scan non-deleted rows (optionally namespace-filtered),
keep the latest-`lastSeen` row per `(imageName, resourceType, resourceName,
namespace)` key, then aggregate container names per `(imageName, tag,
resourceType, resourceName, namespace)` key.  Go iterates its maps in
unspecified order; the association lists here fix insertion order, which
leaves the map *values* (and hence the multiset of result rows up to
container order) as in Go. -/
def getAllImages (s : Store) (nspace : String) : List ImageInfo :=
  let rows := s.imageTags.filter (inventoryCond nspace)
  let latest := rows.foldl (fun acc r => updateLatest acc (resourceKey s r) r) []
  let infos := latest.foldl (fun acc kr => addContainer s acc (imageKey s kr.2) kr.2) []
  infos.map Prod.snd

/-- The rows fetched by `GetImageTagHistory`: `Unscoped()` (soft-deleted
rows included), `image_id = ?`, plus the optional namespace filter. -/
def historyRows (s : Store) (imageId : Nat) (nspace : String) : List ImageTagRow :=
  s.imageTags.filter (fun r =>
    decide (r.imageId = imageId ∧ (nspace = "" ∨ r.nspace = nspace)))

/-- Insert into a list kept sorted by `firstSeen` descending
(`Order("first_seen DESC")`). -/
def insertFirstSeenDesc (r : ImageTagRow) : List ImageTagRow → List ImageTagRow
  | [] => [r]
  | x :: xs =>
    if x.firstSeen ≤ r.firstSeen then r :: x :: xs else x :: insertFirstSeenDesc r xs

/-- Sort by `firstSeen` descending. -/
def sortFirstSeenDesc : List ImageTagRow → List ImageTagRow
  | [] => []
  | x :: xs => insertFirstSeenDesc x (sortFirstSeenDesc xs)

/-- Build one `ImageTagDetails` from a fetched row; `active` is the
`tagActiveMap` lookup — true iff some fetched row with the same tag string
is non-deleted (`it.DeletedAt.Time.IsZero()`). -/
def detailOf (s : Store) (imageId : Nat) (nspace : String) (r : ImageTagRow) :
    ImageTagDetails :=
  { tag := r.tag, firstSeen := r.firstSeen, lastSeen := r.lastSeen,
    resourceType := r.resourceType, resourceName := r.resourceName,
    nspace := r.nspace, container := r.containerName,
    active := (historyRows s imageId nspace).any (fun r2 =>
      decide (r2.tag = r.tag ∧ r2.deletedAt = none)) }

/-- The image lookup of `GetImageTagHistory`:
`Where("name = ?", imageName).First(&image)` under the soft-delete scope,
in primary-key order. -/
def findImageByName (s : Store) (imageName : String) : Option ImageRow :=
  s.images.find? (fun i => decide (i.name = imageName ∧ i.deletedAt = none))

/-- `GetImageTagHistory`: resolve the image by exact name (error when there
is none), then return every tag row of that image — soft-deleted ones
included — optionally namespace-filtered, ordered by `firstSeen`
descending, each carrying the shared per-tag `active` flag. -/
def getImageTagHistory (s : Store) (imageName nspace : String) :
    Except String ImageTagHistory :=
  match findImageByName s imageName with
  | none => .error "image not found"
  | some image =>
    .ok { imageName := imageName,
          tags := (sortFirstSeenDesc (historyRows s image.id nspace)).map
            (detailOf s image.id nspace) }

/-! ### Reconciler (internal/service/image_service.go, HandleImageEvent) -/

/-- `k8s.ImageEvent`.  `ImageEventType` is a Go string type, so `type` is a
`String` here (named `kind`, `type` being reserved in Lean). -/
structure ImageEvent where
  kind : String
  resourceType : String
  resourceName : String
  nspace : String
  containerName : String
  imageName : String
  imageTag : String
  repository : String
  timestamp : Nat
deriving DecidableEq

/-- The repository call issued by the Reconciler for one event. -/
inductive ServiceCall where
  | upsertCall (imageName repository tag resourceType resourceName nspace containerName : String)
  | deleteCall (resourceType resourceName nspace : String)
deriving DecidableEq

/-- The dispatch switch of `HandleImageEvent`: ADD/UPDATE upsert with the
event's identity fields, DELETE soft-deletes by resource key, anything
else does nothing. -/
def dispatchEvent (e : ImageEvent) : Option ServiceCall :=
  if e.kind = "ADD" ∨ e.kind = "UPDATE" then
    some (.upsertCall e.imageName e.repository e.imageTag e.resourceType e.resourceName
      e.nspace e.containerName)
  else if e.kind = "DELETE" then
    some (.deleteCall e.resourceType e.resourceName e.nspace)
  else
    none

/-- `HandleImageEvent` as run against a repository that may fail: the
dispatched call is executed and its error, if any, is only logged — the
function returns nothing in every case. -/
def handleImageEvent (repo : ServiceCall → Except String Unit) (e : ImageEvent) : Unit :=
  match dispatchEvent e with
  | some call =>
    match repo call with
    | .ok _ => ()      -- success
    | .error _ => ()   -- logged and swallowed
  | none => ()

/-! ### Spec-diff event emitter (pkg/k8s/informer.go) -/

/-- `corev1.Container`, restricted to the two fields the informer reads. -/
structure Container where
  name : String
  image : String
deriving DecidableEq

/-- `corev1.PodSpec`, restricted to the container lists the informer reads. -/
structure PodSpec where
  containers : List Container
  initContainers : List Container
deriving DecidableEq

/-- `extractImagesFromSpec`: the raw image strings over
`append(spec.Containers, spec.InitContainers...)` — regular containers
first, then init containers. -/
def extractImagesFromSpec (spec : PodSpec) : List String :=
  (spec.containers ++ spec.initContainers).map (fun c => c.image)

/-- `hasImageChanged`: length comparison followed by the positional loop
over the two extracted lists. -/
def hasImageChanged (oldSpec newSpec : PodSpec) : Bool :=
  let oldImages := extractImagesFromSpec oldSpec
  let newImages := extractImagesFromSpec newSpec
  if oldImages.length ≠ newImages.length then true
  else (oldImages.zip newImages).any (fun p => decide (p.1 ≠ p.2))

/-- `shouldWatchNamespace`: an empty configured list watches everything,
otherwise the namespace must be listed. -/
def shouldWatchNamespace (namespaces : List String) (nspace : String) : Bool :=
  if namespaces.isEmpty then true else namespaces.contains nspace

/-- The event built by `handlePodSpecChange` for one container. -/
def eventOfContainer (eventType resourceType resourceName nspace : String) (now : Nat)
    (c : Container) : ImageEvent :=
  let parsed := parseImageFull c.image
  { kind := eventType, resourceType := resourceType, resourceName := resourceName,
    nspace := nspace, containerName := c.name, imageName := parsed.name,
    imageTag := parsed.tag, repository := parsed.repository, timestamp := now }

/-- `handlePodSpecChange`: after the namespace filter, one event per
container of `append(spec.Containers, spec.InitContainers...)`, handed to
the event handler in that order. -/
def handlePodSpecChange (namespaces : List String)
    (eventType resourceType resourceName nspace : String) (spec : PodSpec) (now : Nat) :
    List ImageEvent :=
  if shouldWatchNamespace namespaces nspace then
    (spec.containers ++ spec.initContainers).map
      (eventOfContainer eventType resourceType resourceName nspace now)
  else []

/-- The `UpdateFunc` of the Deployment/DaemonSet/CronJob informers: emit
UPDATE events for the new spec only when `hasImageChanged`. -/
def updateEvents (namespaces : List String) (resourceType resourceName nspace : String)
    (oldSpec newSpec : PodSpec) (now : Nat) : List ImageEvent :=
  if hasImageChanged oldSpec newSpec then
    handlePodSpecChange namespaces "UPDATE" resourceType resourceName nspace newSpec now
  else []

/-! ### List helper lemmas -/

theorem countP_map_eq {α : Type} (f : α → α) (p : α → Bool) (l : List α)
    (h : ∀ a, p (f a) = p a) : (l.map f).countP p = l.countP p := by
  induction l with
  | nil => simp
  | cons a l ih => simp [List.countP_cons, ih, h a]

theorem countP_map_le {α : Type} (f : α → α) (p : α → Bool) (l : List α)
    (h : ∀ a, p (f a) = true → p a = true) : (l.map f).countP p ≤ l.countP p := by
  induction l with
  | nil => simp
  | cons a l ih =>
    simp only [List.map_cons, List.countP_cons]
    by_cases ha : p (f a) = true
    · rw [if_pos ha, if_pos (h a ha)]
      omega
    · rw [if_neg ha]
      split <;> omega

theorem find?_map_eq {α : Type} (f : α → α) (p : α → Bool) (l : List α)
    (h : ∀ a, p (f a) = p a) : (l.map f).find? p = (l.find? p).map f := by
  induction l with
  | nil => simp
  | cons a l ih =>
    by_cases ha : p a = true
    · rw [List.map_cons, List.find?_cons_of_pos _ ((h a).trans ha),
        List.find?_cons_of_pos _ ha]
      rfl
    · have ha' : ¬p (f a) = true := by rw [h a]; exact ha
      rw [List.map_cons, List.find?_cons_of_neg _ ha', List.find?_cons_of_neg _ ha, ih]

/-! ### firstOrCreateImage / upsertImageTag structural lemmas -/

theorem firstOrCreateImage_imageTags (s : Store) (imageName repository fullName : String)
    (now : Nat) : (firstOrCreateImage s imageName repository fullName now).2.imageTags =
      s.imageTags := by
  unfold firstOrCreateImage
  cases s.images.find? (imageCond imageName repository fullName) <;> rfl

theorem firstOrCreateImage_nextTagId (s : Store) (imageName repository fullName : String)
    (now : Nat) : (firstOrCreateImage s imageName repository fullName now).2.nextTagId =
      s.nextTagId := by
  unfold firstOrCreateImage
  cases s.images.find? (imageCond imageName repository fullName) <;> rfl

/-- After `firstOrCreateImage`, the lookup it performed finds exactly the
returned image row. -/
theorem firstOrCreateImage_find_self (s : Store) (imageName repository fullName : String)
    (now : Nat) :
    (firstOrCreateImage s imageName repository fullName now).2.images.find?
        (imageCond imageName repository fullName) =
      some (firstOrCreateImage s imageName repository fullName now).1 := by
  unfold firstOrCreateImage
  cases hf : s.images.find? (imageCond imageName repository fullName) with
  | some i => simpa using hf
  | none =>
    simp only []
    rw [List.find?_append, hf]
    simp [imageCond]

/-- Updating `last_seen`/`updated_at` does not change whether a row is in
conflict with an identity tuple. -/
theorem conflictCond_update (i : Nat) (tag rt rn ns cn : String) (r : ImageTagRow) (t : Nat) :
    conflictCond i tag rt rn ns cn { r with lastSeen := t, updatedAt := t } =
      conflictCond i tag rt rn ns cn r := rfl

/-- A fresh row conflicts with exactly its own tuple's conflict condition. -/
theorem conflictCond_freshTagRow (i : Nat) (tag rt rn ns cn : String) (now rowId : Nat) :
    conflictCond i tag rt rn ns cn (freshTagRow i tag rt rn ns cn now rowId) = true := by
  simp [conflictCond, freshTagRow]

/-- Updating `last_seen`/`updated_at` does not change whether a row is a
live carrier of an identity tuple. -/
theorem activeCond_update (i : Nat) (tag rt rn ns cn : String) (r : ImageTagRow) (t : Nat) :
    activeCond i tag rt rn ns cn { r with lastSeen := t, updatedAt := t } =
      activeCond i tag rt rn ns cn r := rfl

/-- A fresh row is a live carrier of its own tuple. -/
theorem activeCond_freshTagRow (i : Nat) (tag rt rn ns cn : String) (now rowId : Nat) :
    activeCond i tag rt rn ns cn (freshTagRow i tag rt rn ns cn now rowId) = true := by
  simp [activeCond, freshTagRow]

/-- A live carrier of a tuple is in particular a conflict for it. -/
theorem activeCond_imp_conflictCond (i : Nat) (tag rt rn ns cn : String) (r : ImageTagRow)
    (h : activeCond i tag rt rn ns cn r = true) : conflictCond i tag rt rn ns cn r = true := by
  have h' := of_decide_eq_true h
  exact decide_eq_true ⟨h'.1, h'.2.1, h'.2.2.1, h'.2.2.2.1, h'.2.2.2.2.1, h'.2.2.2.2.2.1⟩

/-- A non-deleted conflicting row is a live carrier. -/
theorem activeCond_of_conflictCond (i : Nat) (tag rt rn ns cn : String) (r : ImageTagRow)
    (h : conflictCond i tag rt rn ns cn r = true) (hlive : r.deletedAt = none) :
    activeCond i tag rt rn ns cn r = true := by
  have h' := of_decide_eq_true h
  exact decide_eq_true ⟨h'.1, h'.2.1, h'.2.2.1, h'.2.2.2.1, h'.2.2.2.2.1, h'.2.2.2.2.2, hlive⟩

/-- When the lookup succeeds, `firstOrCreateImage` returns the found row
and leaves the store unchanged. -/
theorem firstOrCreateImage_of_find (s : Store) (imageName repository fullName : String)
    (now : Nat) (img : ImageRow)
    (h : s.images.find? (imageCond imageName repository fullName) = some img) :
    firstOrCreateImage s imageName repository fullName now = (img, s) := by
  unfold firstOrCreateImage
  rw [h]

/-- Any later `firstOrCreateImage` for the same identity, run on a store
with the images table produced by a first one, returns the same image row. -/
theorem firstOrCreateImage_stable (s s' : Store) (imageName repository fullName : String)
    (now now' : Nat)
    (him : s'.images = (firstOrCreateImage s imageName repository fullName now).2.images) :
    firstOrCreateImage s' imageName repository fullName now' =
      ((firstOrCreateImage s imageName repository fullName now).1, s') := by
  apply firstOrCreateImage_of_find
  rw [him]
  exact firstOrCreateImage_find_self s imageName repository fullName now

/-- The conflict branch of `UpsertImageTag`: some non-deleted row carries
the tuple, so only `last_seen`/`updated_at` of that row change. -/
theorem upsertImageTag_imageTags_of_conflict (s : Store)
    (imageName repository tag rt rn ns cn : String) (now : Nat)
    (h : s.imageTags.any (conflictCond
      (firstOrCreateImage s imageName repository (repository ++ "/" ++ imageName) now).1.id
      tag rt rn ns cn) = true) :
    (upsertImageTag s imageName repository tag rt rn ns cn now).imageTags =
      s.imageTags.map (fun r =>
        if conflictCond
            (firstOrCreateImage s imageName repository (repository ++ "/" ++ imageName) now).1.id
            tag rt rn ns cn r
        then { r with lastSeen := now, updatedAt := now } else r) := by
  simp only [upsertImageTag, firstOrCreateImage_imageTags]
  rw [if_pos h]

/-- The insert branch of `UpsertImageTag`: no non-deleted row carries the
tuple, so a fresh row is appended. -/
theorem upsertImageTag_imageTags_of_insert (s : Store)
    (imageName repository tag rt rn ns cn : String) (now : Nat)
    (h : s.imageTags.any (conflictCond
      (firstOrCreateImage s imageName repository (repository ++ "/" ++ imageName) now).1.id
      tag rt rn ns cn) = false) :
    (upsertImageTag s imageName repository tag rt rn ns cn now).imageTags =
      s.imageTags ++
        [freshTagRow
          (firstOrCreateImage s imageName repository (repository ++ "/" ++ imageName) now).1.id
          tag rt rn ns cn now s.nextTagId] := by
  simp only [upsertImageTag, firstOrCreateImage_imageTags, firstOrCreateImage_nextTagId]
  rw [if_neg (by rw [h]; exact Bool.false_ne_true)]

/-- `UpsertImageTag` leaves the images table as `firstOrCreateImage`
produced it. -/
theorem upsertImageTag_images (s : Store)
    (imageName repository tag rt rn ns cn : String) (now : Nat) :
    (upsertImageTag s imageName repository tag rt rn ns cn now).images =
      (firstOrCreateImage s imageName repository (repository ++ "/" ++ imageName) now).2.images := by
  simp only [upsertImageTag]
  split <;> rfl

/-! ### Preservation of the uniqueness invariant -/

theorem upsert_preserves_unique (s : Store)
    (imageName repository tag rt rn ns cn : String) (now : Nat)
    (hu : UniqueActive s) :
    UniqueActive (upsertImageTag s imageName repository tag rt rn ns cn now) := by
  intro i t a b c d
  cases h : s.imageTags.any (conflictCond
      (firstOrCreateImage s imageName repository (repository ++ "/" ++ imageName) now).1.id
      tag rt rn ns cn) with
  | true =>
    rw [activeCount, upsertImageTag_imageTags_of_conflict s imageName repository tag rt rn ns cn now h,
      countP_map_eq]
    · exact hu i t a b c d
    · intro r
      by_cases hr : conflictCond
          (firstOrCreateImage s imageName repository (repository ++ "/" ++ imageName) now).1.id
          tag rt rn ns cn r = true
      · rw [if_pos hr, activeCond_update]
      · rw [if_neg hr]
  | false =>
    rw [activeCount, upsertImageTag_imageTags_of_insert s imageName repository tag rt rn ns cn now h,
      List.countP_append]
    by_cases hx : activeCond i t a b c d
        (freshTagRow
          (firstOrCreateImage s imageName repository (repository ++ "/" ++ imageName) now).1.id
          tag rt rn ns cn now s.nextTagId) = true
    · have hfields := of_decide_eq_true hx
      simp only [freshTagRow, activeCond] at hfields
      obtain ⟨h1, h2, h3, h4, h5, h6, -⟩ := hfields
      have hzero : s.imageTags.countP (activeCond i t a b c d) = 0 := by
        rw [← h1, ← h2, ← h3, ← h4, ← h5, ← h6]
        exact List.countP_eq_zero.mpr (fun r hr hp => by
          have := List.any_eq_false.mp h
          exact absurd (activeCond_imp_conflictCond _ _ _ _ _ _ _ hp) (this r hr))
      simp [hzero, List.countP_cons, hx]
    · have hzero : List.countP (activeCond i t a b c d)
          [freshTagRow
            (firstOrCreateImage s imageName repository (repository ++ "/" ++ imageName) now).1.id
            tag rt rn ns cn now s.nextTagId] = 0 := by
        simp [List.countP_cons, hx]
      rw [hzero]
      simpa using hu i t a b c d

theorem delete_preserves_unique (s : Store) (rt rn ns : String) (now : Nat)
    (hu : UniqueActive s) : UniqueActive (deleteImageTag s rt rn ns now) := by
  intro i t a b c d
  rw [activeCount, deleteImageTag]
  refine le_trans (countP_map_le _ _ _ ?_) (hu i t a b c d)
  intro r hp
  by_cases hr : deleteCond rt rn ns r = true
  · rw [if_pos hr] at hp
    exact absurd (of_decide_eq_true hp).2.2.2.2.2.2 (by simp)
  · rwa [if_neg hr] at hp

/-- C2: every sequence of Store operations (`upsertTag` / `deleteTags`)
run from the empty store preserves the §3 invariant — no two non-deleted
`ImageTagRecord` rows ever share the tuple `(imageId, tag, resourceType,
resourceName, namespace, containerName)`. -/
theorem store_ops_unique (ops : List StoreOp) : UniqueActive (runOps ops) := by
  have hstep : ∀ (ops : List StoreOp) (s : Store),
      UniqueActive s → UniqueActive (ops.foldl applyOp s) := by
    intro ops
    induction ops with
    | nil => exact fun s hs => hs
    | cons op rest ih =>
      intro s hs
      rw [List.foldl_cons]
      apply ih
      cases op with
      | upsertOp imageName repository tag rt rn ns cn now =>
        exact upsert_preserves_unique s imageName repository tag rt rn ns cn now hs
      | deleteOp rt rn ns now => exact delete_preserves_unique s rt rn ns now hs
  refine hstep ops emptyStore ?_
  intro i t a b c d
  simp [activeCount, emptyStore]

/-- The conflict-branch row update of `UpsertImageTag` never changes which
rows are live carriers of a tuple. -/
theorem activeCond_map_stable (i : Nat) (tag rt rn ns cn : String) (t : Nat)
    (r : ImageTagRow) :
    activeCond i tag rt rn ns cn
      (if conflictCond i tag rt rn ns cn r then { r with lastSeen := t, updatedAt := t }
       else r) = activeCond i tag rt rn ns cn r := by
  by_cases hr : conflictCond i tag rt rn ns cn r = true
  · rw [if_pos hr, activeCond_update]
  · rw [if_neg hr]

/-- After one `UpsertImageTag` of a tuple none of whose carriers in the
store are soft-deleted, the tuple has exactly one non-deleted row, found
by `find?`, whose `lastSeen` is the call's `now`. -/
theorem upsertImageTag_once (s : Store)
    (imageName repository tag rt rn ns cn : String) (t1 : Nat) (hu : UniqueActive s)
    (hnodel : ∀ r ∈ s.imageTags, conflictCond
      (firstOrCreateImage s imageName repository (repository ++ "/" ++ imageName) t1).1.id
      tag rt rn ns cn r = true → r.deletedAt = none) :
    (upsertImageTag s imageName repository tag rt rn ns cn t1).imageTags.countP
      (activeCond
        (firstOrCreateImage s imageName repository (repository ++ "/" ++ imageName) t1).1.id
        tag rt rn ns cn) = 1 ∧
    ∃ r1, (upsertImageTag s imageName repository tag rt rn ns cn t1).imageTags.find?
        (activeCond
          (firstOrCreateImage s imageName repository (repository ++ "/" ++ imageName) t1).1.id
          tag rt rn ns cn) = some r1 ∧ r1.lastSeen = t1 := by
  cases h1 : s.imageTags.any (conflictCond
      (firstOrCreateImage s imageName repository (repository ++ "/" ++ imageName) t1).1.id
      tag rt rn ns cn) with
  | true =>
    have heq := upsertImageTag_imageTags_of_conflict s imageName repository tag rt rn ns cn t1 h1
    obtain ⟨r0, hr0mem, hr0⟩ := List.any_eq_true.mp h1
    have hr0act := activeCond_of_conflictCond _ tag rt rn ns cn r0 hr0 (hnodel r0 hr0mem hr0)
    constructor
    · rw [heq, countP_map_eq _ _ _ (activeCond_map_stable _ tag rt rn ns cn t1)]
      have hge : 0 < s.imageTags.countP (activeCond
          (firstOrCreateImage s imageName repository (repository ++ "/" ++ imageName) t1).1.id
          tag rt rn ns cn) := List.countP_pos_iff.mpr ⟨r0, hr0mem, hr0act⟩
      have hle := hu
        (firstOrCreateImage s imageName repository (repository ++ "/" ++ imageName) t1).1.id
        tag rt rn ns cn
      rw [activeCount] at hle
      omega
    · have hsome : (s.imageTags.find? (activeCond
          (firstOrCreateImage s imageName repository (repository ++ "/" ++ imageName) t1).1.id
          tag rt rn ns cn)).isSome := List.find?_isSome.mpr ⟨r0, hr0mem, hr0act⟩
      obtain ⟨r0', hr0'⟩ := Option.isSome_iff_exists.mp hsome
      refine ⟨{ r0' with lastSeen := t1, updatedAt := t1 }, ?_, rfl⟩
      rw [heq, find?_map_eq _ _ _ (activeCond_map_stable _ tag rt rn ns cn t1), hr0',
        Option.map_some']
      rw [if_pos (activeCond_imp_conflictCond _ _ _ _ _ _ _ (List.find?_some hr0'))]
  | false =>
    have heq := upsertImageTag_imageTags_of_insert s imageName repository tag rt rn ns cn t1 h1
    have hall := List.any_eq_false.mp h1
    have hallact : ∀ a ∈ s.imageTags, ¬activeCond
        (firstOrCreateImage s imageName repository (repository ++ "/" ++ imageName) t1).1.id
        tag rt rn ns cn a = true :=
      fun a ha hact => hall a ha (activeCond_imp_conflictCond _ _ _ _ _ _ _ hact)
    constructor
    · rw [heq, List.countP_append, List.countP_eq_zero.mpr hallact]
      simp [List.countP_cons, activeCond_freshTagRow]
    · refine ⟨freshTagRow
        (firstOrCreateImage s imageName repository (repository ++ "/" ++ imageName) t1).1.id
        tag rt rn ns cn t1 s.nextTagId, ?_, rfl⟩
      rw [heq, List.find?_append, List.find?_eq_none.mpr hallact, Option.none_or]
      rw [List.find?_cons_of_pos _ (activeCond_freshTagRow _ tag rt rn ns cn t1 s.nextTagId)]

/-- C1 (amended): upserting the same identity tuple twice (with
non-decreasing clock readings), from an invariant-satisfying store in
which no soft-deleted row carries the tuple, leaves exactly one
non-deleted `ImageTagRecord` for the tuple; the record's `firstSeen`
after the second call equals its `firstSeen` after the first call, and
its `lastSeen` is non-decreasing across the two calls — the conflict
path updates only `lastSeen` (and `updatedAt`), leaving `firstSeen`
untouched.  The precondition is forced by the non-partial conflict
arbiter `idx_image_tag_resource`: a soft-deleted carrier would absorb
both upserts (see the counterexample). -/
theorem upsert_idempotent (s : Store)
    (imageName repository tag rt rn ns cn : String) (t1 t2 i : Nat)
    (hu : UniqueActive s) (ht : t1 ≤ t2)
    (hi : (firstOrCreateImage s imageName repository (repository ++ "/" ++ imageName) t1).1.id
      = i)
    (hnodel : ∀ r ∈ s.imageTags, conflictCond i tag rt rn ns cn r = true →
      r.deletedAt = none) :
    activeCount (upsertImageTag (upsertImageTag s imageName repository tag rt rn ns cn t1)
        imageName repository tag rt rn ns cn t2).imageTags i tag rt rn ns cn = 1 ∧
    activeCount (upsertImageTag s imageName repository tag rt rn ns cn t1).imageTags
        i tag rt rn ns cn = 1 ∧
    ∃ r1 r2,
      (upsertImageTag s imageName repository tag rt rn ns cn t1).imageTags.find?
          (activeCond i tag rt rn ns cn) = some r1 ∧
      (upsertImageTag (upsertImageTag s imageName repository tag rt rn ns cn t1)
          imageName repository tag rt rn ns cn t2).imageTags.find?
          (activeCond i tag rt rn ns cn) = some r2 ∧
      r2.firstSeen = r1.firstSeen ∧ r1.lastSeen ≤ r2.lastSeen := by
  subst hi
  obtain ⟨hc1, r1, hf1, hl1⟩ :=
    upsertImageTag_once s imageName repository tag rt rn ns cn t1 hu hnodel
  have him : (upsertImageTag s imageName repository tag rt rn ns cn t1).images =
      (firstOrCreateImage s imageName repository (repository ++ "/" ++ imageName) t1).2.images :=
    upsertImageTag_images s imageName repository tag rt rn ns cn t1
  have hstab := firstOrCreateImage_stable s
    (upsertImageTag s imageName repository tag rt rn ns cn t1)
    imageName repository (repository ++ "/" ++ imageName) t1 t2 him
  have hid2 : (firstOrCreateImage (upsertImageTag s imageName repository tag rt rn ns cn t1)
      imageName repository (repository ++ "/" ++ imageName) t2).1.id =
      (firstOrCreateImage s imageName repository (repository ++ "/" ++ imageName) t1).1.id := by
    rw [hstab]
  have hany2 : (upsertImageTag s imageName repository tag rt rn ns cn t1).imageTags.any
      (conflictCond (firstOrCreateImage (upsertImageTag s imageName repository tag rt rn ns cn t1)
        imageName repository (repository ++ "/" ++ imageName) t2).1.id tag rt rn ns cn) = true := by
    rw [hid2]
    exact List.any_eq_true.mpr ⟨r1, List.mem_of_find?_eq_some hf1,
      activeCond_imp_conflictCond _ _ _ _ _ _ _ (List.find?_some hf1)⟩
  have heq2 := upsertImageTag_imageTags_of_conflict
    (upsertImageTag s imageName repository tag rt rn ns cn t1)
    imageName repository tag rt rn ns cn t2 hany2
  rw [hid2] at heq2
  refine ⟨?_, hc1, r1, { r1 with lastSeen := t2, updatedAt := t2 }, hf1, ?_, rfl, ?_⟩
  · rw [activeCount, heq2,
      countP_map_eq _ _ _ (activeCond_map_stable _ tag rt rn ns cn t2)]
    exact hc1
  · rw [heq2, find?_map_eq _ _ _ (activeCond_map_stable _ tag rt rn ns cn t2), hf1,
      Option.map_some']
    rw [if_pos (activeCond_imp_conflictCond _ _ _ _ _ _ _ (List.find?_some hf1))]
  · rw [hl1]
    exact ht

/-- Store operations reaching a store whose only row carrying the tuple
`(nginx, docker.io, 1.19, Deployment, web, default, nginx)` is
soft-deleted: one upsert, then the resource-scoped delete. -/
def c1Ops : List StoreOp :=
  [.upsertOp "nginx" "docker.io" "1.19" "Deployment" "web" "default" "nginx" 1,
   .deleteOp "Deployment" "web" "default" 2]

/-- The store reached by `c1Ops` from the empty store. -/
def c1Store : Store := runOps c1Ops

/-- C1 counterexample: at the reachable store `c1Store`, whose only row
for the tuple (of the image with id 1) is soft-deleted, both upserts
conflict with the deleted row — the arbiter `idx_image_tag_resource` is
not partial — and merely refresh its `lastSeen`: after calling
`upsertTag` twice with the same tuple there are zero non-deleted
`ImageTagRecord` rows for the tuple, not exactly one. -/
theorem upsert_idempotent_cex :
    c1Store = runOps c1Ops ∧
    (firstOrCreateImage c1Store "nginx" "docker.io" ("docker.io" ++ "/" ++ "nginx") 3).1.id
      = 1 ∧
    (∃ r ∈ c1Store.imageTags,
      conflictCond 1 "1.19" "Deployment" "web" "default" "nginx" r = true ∧
      r.deletedAt ≠ none) ∧
    activeCount (upsertImageTag
      (upsertImageTag c1Store "nginx" "docker.io" "1.19" "Deployment" "web" "default"
        "nginx" 3)
      "nginx" "docker.io" "1.19" "Deployment" "web" "default" "nginx" 4).imageTags
      1 "1.19" "Deployment" "web" "default" "nginx" = 0 := by
  exact ⟨rfl, by decide, by decide, by decide⟩

/-- The image row of the soft-deleted-tuple store. -/
def delImg : ImageRow := ⟨1, 0, 0, none, "nginx", "docker.io", "docker.io/nginx"⟩

/-- A store whose only row for the tuple is soft-deleted. -/
def delStore : Store :=
  ⟨[delImg], [⟨1, 0, 0, some 7, 1, "1.19", 1, 5, "Deployment", "web", "default", "nginx"⟩],
   2, 2⟩

/-- C3, the code evaluated at the failing input: with the non-partial
conflict arbiter `idx_image_tag_resource`, upserting a tuple whose only
row is soft-deleted refreshes that row's `lastSeen`/`updatedAt` in place
— the row stays soft-deleted, keeps its old `firstSeen`, and no fresh row
is inserted, so the tuple still has zero non-deleted rows.  The claim
(and spec §3, which demands a fresh row with new first-seen provenance)
states the intent; the code diverges. -/
theorem upsert_soft_deleted_refreshes :
    upsertImageTag delStore "nginx" "docker.io" "1.19" "Deployment" "web" "default" "nginx" 9 =
      ⟨[delImg],
       [⟨1, 0, 9, some 7, 1, "1.19", 1, 9, "Deployment", "web", "default", "nginx"⟩], 2, 2⟩ ∧
    activeCount (upsertImageTag delStore "nginx" "docker.io" "1.19" "Deployment" "web"
      "default" "nginx" 9).imageTags 1 "1.19" "Deployment" "web" "default" "nginx" = 0 := by
  exact ⟨by decide, by decide⟩

/-- C7: `deleteTags` soft-deletes (sets `deletedAt = now` on) every
non-deleted row whose `(resourceType, resourceName, namespace)` matches,
regardless of its tag or container name; already soft-deleted rows and
non-matching rows are left bitwise unchanged; no rows are added or
removed; and when nothing matches the call is a no-op returning the store
untouched (the Go call returns a nil error either way). -/
theorem delete_tags_spec (s : Store) (rt rn ns : String) (now : Nat) :
    (∀ r ∈ s.imageTags, r.resourceType = rt → r.resourceName = rn → r.nspace = ns →
      r.deletedAt = none →
      { r with deletedAt := some now } ∈ (deleteImageTag s rt rn ns now).imageTags) ∧
    (∀ r ∈ s.imageTags, r.deletedAt ≠ none → r ∈ (deleteImageTag s rt rn ns now).imageTags) ∧
    (∀ r ∈ s.imageTags, ¬(r.resourceType = rt ∧ r.resourceName = rn ∧ r.nspace = ns) →
      r ∈ (deleteImageTag s rt rn ns now).imageTags) ∧
    ((deleteImageTag s rt rn ns now).imageTags.length = s.imageTags.length) ∧
    ((∀ r ∈ s.imageTags, deleteCond rt rn ns r = false) → deleteImageTag s rt rn ns now = s) := by
  refine ⟨?_, ?_, ?_, ?_, ?_⟩
  · intro r hr h1 h2 h3 h4
    have hc : deleteCond rt rn ns r = true := by
      simp [deleteCond, h1, h2, h3, h4]
    have : (fun r => if deleteCond rt rn ns r then { r with deletedAt := some now } else r) r
        = { r with deletedAt := some now } := by simp [hc]
    rw [deleteImageTag]
    exact this ▸ List.mem_map_of_mem _ hr
  · intro r hr hd
    have hc : deleteCond rt rn ns r = false := by
      simp only [deleteCond, decide_eq_false_iff_not]
      intro hcontra
      exact hd hcontra.2.2.2
    have : (fun r => if deleteCond rt rn ns r then { r with deletedAt := some now } else r) r
        = r := by simp [hc]
    rw [deleteImageTag]
    exact this ▸ List.mem_map_of_mem _ hr
  · intro r hr hd
    have hc : deleteCond rt rn ns r = false := by
      simp only [deleteCond, decide_eq_false_iff_not]
      intro hcontra
      exact hd ⟨hcontra.1, hcontra.2.1, hcontra.2.2.1⟩
    have : (fun r => if deleteCond rt rn ns r then { r with deletedAt := some now } else r) r
        = r := by simp [hc]
    rw [deleteImageTag]
    exact this ▸ List.mem_map_of_mem _ hr
  · rw [deleteImageTag]
    exact List.length_map _ _
  · intro hnone
    have hmap : s.imageTags.map
        (fun r => if deleteCond rt rn ns r then { r with deletedAt := some now } else r)
        = s.imageTags := by
      have hpt : ∀ r ∈ s.imageTags,
          (if deleteCond rt rn ns r then { r with deletedAt := some now } else r) = id r := by
        intro r hr
        rw [if_neg (by rw [hnone r hr]; exact Bool.false_ne_true)]
        rfl
      rw [List.map_congr_left hpt, List.map_id]
    rw [deleteImageTag, hmap]

/-- C4: `HandleImageEvent` dispatches every event to exactly one Store
call — ADD and UPDATE upsert with the event's identity fields, DELETE
soft-deletes by `(resourceType, resourceName, namespace)` only, any other
kind does nothing — and a Store error is swallowed: the handler returns
normally for every repository outcome. -/
theorem reconciler_dispatch (e : ImageEvent) :
    (e.kind = "ADD" ∨ e.kind = "UPDATE" →
      dispatchEvent e = some (.upsertCall e.imageName e.repository e.imageTag
        e.resourceType e.resourceName e.nspace e.containerName)) ∧
    (e.kind = "DELETE" →
      dispatchEvent e = some (.deleteCall e.resourceType e.resourceName e.nspace)) ∧
    (e.kind ≠ "ADD" → e.kind ≠ "UPDATE" → e.kind ≠ "DELETE" → dispatchEvent e = none) ∧
    (∀ repo : ServiceCall → Except String Unit, handleImageEvent repo e = ()) := by
  refine ⟨?_, ?_, ?_, fun repo => rfl⟩
  · intro h
    rw [dispatchEvent, if_pos h]
  · intro h
    rw [dispatchEvent, if_neg (by simp [h]), if_pos h]
  · intro h1 h2 h3
    rw [dispatchEvent, if_neg (by simp [h1, h2]), if_neg h3]

/-! ### Spec-diff emitter theorems -/

theorem zip_any_ne_iff {α : Type} [DecidableEq α] (l1 l2 : List α)
    (h : l1.length = l2.length) :
    ((l1.zip l2).any fun p => decide (p.1 ≠ p.2)) = true ↔ l1 ≠ l2 := by
  induction l1 generalizing l2 with
  | nil =>
    cases l2 with
    | nil => simp
    | cons b l2 => simp at h
  | cons a l1 ih =>
    cases l2 with
    | nil => simp at h
    | cons b l2 =>
      simp only [List.length_cons, Nat.add_right_cancel_iff] at h
      by_cases hab : a = b
      · subst hab
        have hhead : (((a, a) :: l1.zip l2).any fun p => decide (p.1 ≠ p.2)) =
            ((l1.zip l2).any fun p => decide (p.1 ≠ p.2)) := by simp
        rw [List.zip_cons_cons, hhead, ih l2 h]
        simp [List.cons.injEq]
      · simp [hab]

/-- `hasImageChanged` is exactly inequality of the two ordered image
lists (regular containers followed by init containers): they differ in
length or at some position. -/
theorem hasImageChanged_iff (oldSpec newSpec : PodSpec) :
    hasImageChanged oldSpec newSpec = true ↔
      extractImagesFromSpec oldSpec ≠ extractImagesFromSpec newSpec := by
  simp only [hasImageChanged]
  by_cases hlen : (extractImagesFromSpec oldSpec).length = (extractImagesFromSpec newSpec).length
  · rw [if_neg (by simp [hlen])]
    exact zip_any_ne_iff _ _ hlen
  · rw [if_pos hlen]
    constructor
    · intro _ heq
      exact hlen (congrArg List.length heq)
    · intro _
      rfl

/-- The ordered image list in the SPEC's wording (§4.2: init containers
followed by regular containers).  Stated from the spec's words, for
comparison with the code's `extractImagesFromSpec`, which concatenates in
the opposite order. -/
def specOrderImages (spec : PodSpec) : List String :=
  (spec.initContainers ++ spec.containers).map (fun c => c.image)

/-- A MODIFIED resource's old pod spec: regular container image `x`, init
container image `y`. -/
def cexOldSpec : PodSpec := ⟨[⟨"app", "x"⟩], [⟨"ini", "y"⟩]⟩

/-- The same resource's new pod spec: regular container images `x` and
`y`, no init containers. -/
def cexNewSpec : PodSpec := ⟨[⟨"app", "x"⟩, ⟨"app2", "y"⟩], []⟩

/-- C8 counterexample: the init-first ordered lists (`[y, x]` vs
`[x, y]`) have equal length and differ at a position, so the claim
demands UPDATE events for both new containers — but the code compares
regular-first lists (`[x, y]` vs `[x, y]`) and emits nothing. -/
theorem update_emission_order_cex :
    specOrderImages cexOldSpec ≠ specOrderImages cexNewSpec ∧
    (specOrderImages cexOldSpec).length = (specOrderImages cexNewSpec).length ∧
    updateEvents [] "Deployment" "web" "default" cexOldSpec cexNewSpec 0 = [] := by
  refine ⟨by decide, rfl, ?_⟩
  rfl

/-- C8 (amended): for a watched namespace, the emitter emits nothing when
the ordered image lists over regular-then-init containers are identical,
and otherwise emits exactly one UPDATE event per container of the new
spec (regular containers first, then init containers). -/
theorem update_emission_amended (namespaces : List String)
    (rt rn ns : String) (oldSpec newSpec : PodSpec) (now : Nat)
    (hw : shouldWatchNamespace namespaces ns = true) :
    (extractImagesFromSpec oldSpec = extractImagesFromSpec newSpec →
      updateEvents namespaces rt rn ns oldSpec newSpec now = []) ∧
    (extractImagesFromSpec oldSpec ≠ extractImagesFromSpec newSpec →
      updateEvents namespaces rt rn ns oldSpec newSpec now =
        (newSpec.containers ++ newSpec.initContainers).map
          (eventOfContainer "UPDATE" rt rn ns now)) := by
  constructor
  · intro h
    rw [updateEvents, if_neg]
    intro hchanged
    exact (hasImageChanged_iff oldSpec newSpec).mp hchanged h
  · intro h
    rw [updateEvents, if_pos ((hasImageChanged_iff oldSpec newSpec).mpr h),
      handlePodSpecChange, if_pos hw]

/-! ### Parser theorems -/

/-- C9: `parseImageFull` is total — splitting can never produce an empty
segment list, so the Go indexing `parts[0]` is safe and every input yields
a result — and the four sample references parse to exactly the documented
triples. -/
theorem parse_round_trip :
    (∀ s : String, goSplit s.data ':' ≠ [] ∧ ∃ out : ParsedImage, parseImageFull s = out) ∧
    parseImageFull "nginx:1.19" = { name := "nginx", tag := "1.19", repository := "docker.io" } ∧
    parseImageFull "nginx" = { name := "nginx", tag := "latest", repository := "docker.io" } ∧
    parseImageFull "library/nginx:1.19" =
      { name := "nginx", tag := "1.19", repository := "docker.io/library" } ∧
    parseImageFull "gcr.io/my-project/app:v1.0" =
      { name := "app", tag := "v1.0", repository := "gcr.io/my-project" } := by
  exact ⟨fun s => ⟨goSplit_ne_nil _ _, ⟨parseImageFull s, rfl⟩⟩, by decide, by decide,
    by decide, by decide⟩

theorem parseNameRepo_tag (imagePart : List Char) (t : String) :
    (parseNameRepo imagePart t).tag = t := by
  simp only [parseNameRepo]
  split
  · rfl
  · split
    · split <;> rfl
    · rfl

/-- C10: on any input with two or more `:` characters, `parseImageFull`
keeps the default tag `"latest"` and computes name and repository solely
from the substring before the first `:` — it behaves exactly as if parsing
that prefix alone. -/
theorem parse_multi_colon (s : String) (h : 2 ≤ s.data.count ':') :
    (parseImageFull s).tag = "latest" ∧
    parseImageFull s = parseImageFull (String.mk (s.data.takeWhile (fun c => c ≠ ':'))) := by
  have hlen : (goSplit s.data ':').length = s.data.count ':' + 1 := goSplit_length _ _
  have hne2 : ¬((goSplit s.data ':').length = 2) := by omega
  have hmain : parseImageFull s = parseNameRepo (s.data.takeWhile (fun c => c ≠ ':')) "latest" := by
    simp only [parseImageFull]
    rw [if_neg hne2, goSplit_head]
  have hnot : ':' ∉ s.data.takeWhile (fun c => c ≠ ':') := by
    intro hm
    have := List.mem_takeWhile_imp hm
    simp at this
  have htrunc : parseImageFull (String.mk (s.data.takeWhile (fun c => c ≠ ':'))) =
      parseNameRepo (s.data.takeWhile (fun c => c ≠ ':')) "latest" := by
    simp only [parseImageFull]
    rw [goSplit_of_not_mem _ _ hnot]
    simp
  refine ⟨?_, hmain.trans htrunc.symm⟩
  rw [hmain, parseNameRepo_tag]

/-! ### Sorting lemmas for the history query -/

theorem insertFirstSeenDesc_perm (r : ImageTagRow) (l : List ImageTagRow) :
    (insertFirstSeenDesc r l).Perm (r :: l) := by
  induction l with
  | nil => exact List.Perm.refl _
  | cons x xs ih =>
    rw [insertFirstSeenDesc]
    by_cases hx : x.firstSeen ≤ r.firstSeen
    · rw [if_pos hx]
    · rw [if_neg hx]
      exact (ih.cons x).trans (List.Perm.swap r x xs)

theorem sortFirstSeenDesc_perm (l : List ImageTagRow) :
    (sortFirstSeenDesc l).Perm l := by
  induction l with
  | nil => exact List.Perm.refl _
  | cons x xs ih =>
    rw [sortFirstSeenDesc]
    exact (insertFirstSeenDesc_perm x (sortFirstSeenDesc xs)).trans (ih.cons x)

theorem insertFirstSeenDesc_sorted (r : ImageTagRow) (l : List ImageTagRow)
    (h : l.Pairwise (fun a b => b.firstSeen ≤ a.firstSeen)) :
    (insertFirstSeenDesc r l).Pairwise (fun a b => b.firstSeen ≤ a.firstSeen) := by
  induction l with
  | nil => simp [insertFirstSeenDesc]
  | cons x xs ih =>
    rw [List.pairwise_cons] at h
    rw [insertFirstSeenDesc]
    by_cases hx : x.firstSeen ≤ r.firstSeen
    · rw [if_pos hx]
      rw [List.pairwise_cons]
      refine ⟨?_, List.pairwise_cons.mpr h⟩
      intro y hy
      rcases List.mem_cons.mp hy with hy | hy
      · rw [hy]; exact hx
      · exact le_trans (h.1 y hy) hx
    · rw [if_neg hx]
      rw [List.pairwise_cons]
      refine ⟨?_, ih h.2⟩
      intro y hy
      have hy' := (insertFirstSeenDesc_perm r xs).mem_iff.mp hy
      rcases List.mem_cons.mp hy' with hy' | hy'
      · rw [hy']; exact le_of_not_le hx
      · exact h.1 y hy'

theorem sortFirstSeenDesc_sorted (l : List ImageTagRow) :
    (sortFirstSeenDesc l).Pairwise (fun a b => b.firstSeen ≤ a.firstSeen) := by
  induction l with
  | nil => simp [sortFirstSeenDesc]
  | cons x xs ih =>
    rw [sortFirstSeenDesc]
    exact insertFirstSeenDesc_sorted x _ ih

/-- C5: `getTagHistory` succeeds exactly when an `Image` with the given
name exists (for stores whose images are all live — no code path ever
soft-deletes an `Image`); on success it returns, for the first image of
that name, every tag row including soft-deleted ones — namespace-filtered
when requested — ordered by `firstSeen` descending, and a row's `active`
flag is true iff some non-deleted row with the same tag string is in the
fetched set, so rows sharing a tag value share the flag. -/
theorem history_spec (s : Store) (imageName ns : String)
    (himg : ∀ i ∈ s.images, i.deletedAt = none) :
    ((∃ h, getImageTagHistory s imageName ns = .ok h) ↔
      ∃ i ∈ s.images, i.name = imageName) ∧
    ∀ hist, getImageTagHistory s imageName ns = .ok hist →
      ∃ img, findImageByName s imageName = some img ∧
        hist.tags.Perm ((historyRows s img.id ns).map (detailOf s img.id ns)) ∧
        hist.tags.Pairwise (fun a b => b.firstSeen ≤ a.firstSeen) ∧
        (∀ d ∈ hist.tags, (d.active = true ↔
          ∃ r ∈ historyRows s img.id ns, r.tag = d.tag ∧ r.deletedAt = none)) ∧
        (∀ d ∈ hist.tags, ∀ e ∈ hist.tags, d.tag = e.tag → d.active = e.active) := by
  cases hfind : findImageByName s imageName with
  | none =>
    have hnone := hfind
    simp only [findImageByName] at hnone
    constructor
    · constructor
      · rintro ⟨h, hh⟩
        simp only [getImageTagHistory, hfind] at hh
        exact Except.noConfusion hh
      · rintro ⟨i, hi, hname⟩
        exfalso
        have := List.find?_eq_none.mp hnone i hi
        exact this (by simp [hname, himg i hi])
    · intro hist hh
      simp only [getImageTagHistory, hfind] at hh
      exact Except.noConfusion hh
  | some img =>
    have hsome := hfind
    simp only [findImageByName] at hsome
    have hp := List.find?_some hsome
    have hp' : decide (img.name = imageName ∧ img.deletedAt = none) = true := hp
    have hpred := of_decide_eq_true hp'
    have hmem := List.mem_of_find?_eq_some hsome
    constructor
    · constructor
      · intro _
        exact ⟨img, hmem, hpred.1⟩
      · intro _
        refine ⟨{ imageName := imageName,
                  tags := (sortFirstSeenDesc (historyRows s img.id ns)).map
                    (detailOf s img.id ns) }, ?_⟩
        simp only [getImageTagHistory, hfind]
    · intro hist hh
      simp only [getImageTagHistory, hfind, Except.ok.injEq] at hh
      subst hh
      have hiff : ∀ d ∈ (sortFirstSeenDesc (historyRows s img.id ns)).map
          (detailOf s img.id ns),
          (d.active = true ↔
            ∃ r ∈ historyRows s img.id ns, r.tag = d.tag ∧ r.deletedAt = none) := by
        intro d hd
        obtain ⟨r, _, rfl⟩ := List.mem_map.mp hd
        simp only [detailOf, List.any_eq_true, decide_eq_true_eq]
      refine ⟨img, rfl, ?_, ?_, hiff, ?_⟩
      · exact (sortFirstSeenDesc_perm _).map _
      · rw [List.pairwise_map]
        exact sortFirstSeenDesc_sorted _
      · intro d hd e he htag
        have h1 := hiff d hd
        have h2 := hiff e he
        rw [htag] at h1
        have hde : d.active = true ↔ e.active = true := h1.trans h2.symm
        by_cases hda : d.active = true
        · rw [hda, hde.mp hda]
        · have hea : ¬e.active = true := fun he' => hda (hde.mpr he')
          rw [Bool.not_eq_true] at hda hea
          rw [hda, hea]

/-! ### Inventory query theorems (C6) -/

/-- The `images` row backing the concrete inventory stores below. -/
def invImage : ImageRow := ⟨1, 0, 0, none, "nginx", "docker.io", "docker.io/nginx"⟩

/-- Two non-deleted rows of one resource with different tags and
different `lastSeen`. -/
def latestStore : Store :=
  ⟨[invImage],
   [⟨1, 0, 0, none, 1, "1.19", 1, 5, "Deployment", "web", "default", "nginx"⟩,
    ⟨2, 0, 0, none, 1, "1.20", 3, 9, "Deployment", "web", "default", "nginx"⟩], 2, 3⟩

/-- Two containers (`nginx`, `sidecar`) of one resource with the
identical image and tag. -/
def dedupStore : Store :=
  ⟨[invImage],
   [⟨1, 0, 0, none, 1, "1.19", 1, 5, "Deployment", "web", "default", "nginx"⟩,
    ⟨2, 0, 0, none, 1, "1.19", 1, 5, "Deployment", "web", "default", "sidecar"⟩], 2, 3⟩

theorem imageNameOf_images_eq (s t : Store) (h : s.images = t.images) (i : Nat) :
    imageNameOf s i = imageNameOf t i := by
  simp only [imageNameOf, h]

theorem resourceKey_images_eq (s t : Store) (h : s.images = t.images) (r : ImageTagRow) :
    resourceKey s r = resourceKey t r := by
  simp only [resourceKey, imageNameOf_images_eq s t h]

theorem imageKey_images_eq (s t : Store) (h : s.images = t.images) (r : ImageTagRow) :
    imageKey s r = imageKey t r := by
  simp only [imageKey, imageNameOf_images_eq s t h]

theorem addContainer_images_eq (s t : Store) (h : s.images = t.images)
    (acc : List (String × ImageInfo)) (key : String) (r : ImageTagRow) :
    addContainer s acc key r = addContainer t acc key r := by
  induction acc with
  | nil => simp only [addContainer, imageNameOf_images_eq s t h]
  | cons kv rest ih =>
    obtain ⟨k, info⟩ := kv
    simp only [addContainer]
    rw [ih]

/-- `GetAllImages` reads the store only through its images table and the
filtered tag rows. -/
theorem getAllImages_images_eq (s t : Store) (ns : String)
    (himg : s.images = t.images)
    (htags : s.imageTags.filter (inventoryCond ns) = t.imageTags.filter (inventoryCond ns)) :
    getAllImages s ns = getAllImages t ns := by
  simp only [getAllImages, htags]
  have h1 : (fun acc r => updateLatest acc (resourceKey s r) r) =
      (fun acc r => updateLatest acc (resourceKey t r) r) := by
    funext acc r
    rw [resourceKey_images_eq s t himg]
  rw [h1]
  have h2 : (fun acc (kr : String × ImageTagRow) => addContainer s acc (imageKey s kr.2) kr.2)
      = (fun acc kr => addContainer t acc (imageKey t kr.2) kr.2) := by
    funext acc kr
    rw [imageKey_images_eq s t himg, addContainer_images_eq s t himg]
  rw [h2]

/-- C6 counterexample: with two containers of one resource sharing the
identical image and tag, `GetAllImages` groups by the container-less key
`imageName|resourceType|resourceName|namespace` first, which keeps only
one of the two rows — the returned inventory has a row, but no row with
two containers. -/
theorem inventory_container_dedup_cex :
    getAllImages dedupStore "" ≠ [] ∧
    ∀ info ∈ getAllImages dedupStore "", info.containers.length = 1 := by
  exact ⟨by decide, by decide⟩

/-- C6 (amended): `GetAllImages` ignores soft-deleted rows and rows
outside the requested namespace, and keeps per
`(imageName, resourceType, resourceName, namespace)` group only the row
with the maximum `lastSeen`; but two containers of one resource with the
identical image and tag yield one row whose container list has length 1
(the container aggregation runs after the per-resource collapse). -/
theorem inventory_spec :
    (∀ (s : Store) (ns : String) (r : ImageTagRow), r.deletedAt ≠ none →
      getAllImages { s with imageTags := r :: s.imageTags } ns = getAllImages s ns) ∧
    (∀ (s : Store) (ns : String) (r : ImageTagRow), ns ≠ "" → r.nspace ≠ ns →
      getAllImages { s with imageTags := r :: s.imageTags } ns = getAllImages s ns) ∧
    getAllImages latestStore "" =
      [⟨"nginx", "1.20", "Deployment", "web", "default", ["nginx"], 3, 9⟩] ∧
    getAllImages dedupStore "" =
      [⟨"nginx", "1.19", "Deployment", "web", "default", ["nginx"], 1, 5⟩] := by
  refine ⟨?_, ?_, by decide, by decide⟩
  · intro s ns r hd
    have hcond : inventoryCond ns r = false := by simp [inventoryCond, hd]
    refine getAllImages_images_eq _ _ _ rfl ?_
    exact List.filter_cons_of_neg (by simp [hcond])
  · intro s ns r hns hr
    have hcond : inventoryCond ns r = false := by simp [inventoryCond, hns, hr]
    refine getAllImages_images_eq _ _ _ rfl ?_
    exact List.filter_cons_of_neg (by simp [hcond])

/-! ### Concrete witnesses -/

/-- Witness for the idempotent upsert on the empty store: the duplicated
tuple ends with exactly one non-deleted row. -/
theorem upsert_idempotent_witness :
    activeCount (upsertImageTag
      (upsertImageTag emptyStore "nginx" "docker.io" "1.19" "Deployment" "web" "default"
        "nginx" 0)
      "nginx" "docker.io" "1.19" "Deployment" "web" "default" "nginx" 1).imageTags
      1 "1.19" "Deployment" "web" "default" "nginx" = 1 :=
  (upsert_idempotent emptyStore "nginx" "docker.io" "1.19" "Deployment" "web" "default"
    "nginx" 0 1 1 (fun i t a b c d => by simp [activeCount, emptyStore]) (by omega)
    (by decide) (by decide)).1

/-- An ADD event for the dispatch witness. -/
def addEvent : ImageEvent :=
  ⟨"ADD", "Deployment", "web", "default", "nginx", "nginx", "1.19", "docker.io", 0⟩

/-- Witness: an ADD event dispatches to the upsert call with the event's
identity fields. -/
theorem reconciler_dispatch_witness :
    dispatchEvent addEvent =
      some (.upsertCall "nginx" "docker.io" "1.19" "Deployment" "web" "default" "nginx") :=
  (reconciler_dispatch addEvent).1 (Or.inl rfl)

/-- A store with one soft-deleted and one live row of image `nginx`. -/
def histStore : Store :=
  ⟨[⟨1, 0, 0, none, "nginx", "docker.io", "docker.io/nginx"⟩],
   [⟨1, 0, 0, some 7, 1, "1.19", 1, 5, "Deployment", "web", "default", "nginx"⟩,
    ⟨2, 0, 0, none, 1, "1.20", 3, 9, "Deployment", "web", "default", "nginx"⟩], 2, 3⟩

/-- Witness: the history query's success is equivalent to an image of the
requested name existing. -/
theorem history_spec_witness :
    (∃ h, getImageTagHistory histStore "nginx" "" = .ok h) ↔
      ∃ i ∈ histStore.images, i.name = "nginx" :=
  (history_spec histStore "nginx" "" (by decide)).1

/-- A soft-deleted row prepended to the latest-tag store. -/
def invExtraRow : ImageTagRow :=
  ⟨9, 0, 0, some 4, 1, "old", 0, 0, "Deployment", "web", "default", "c"⟩

/-- `latestStore` with the soft-deleted row prepended. -/
def invExtendedStore : Store :=
  { latestStore with imageTags := invExtraRow :: latestStore.imageTags }

/-- Witness: the inventory ignores a soft-deleted row. -/
theorem inventory_spec_witness :
    getAllImages invExtendedStore "" = getAllImages latestStore "" :=
  inventory_spec.1 latestStore "" invExtraRow (by decide)

/-- The single live row of the delete witness store. -/
def c7Row : ImageTagRow := ⟨9, 0, 0, none, 1, "1.19", 1, 5, "Deployment", "web", "default", "nginx"⟩

/-- A one-row store for the delete witness. -/
def c7Store : Store := ⟨[], [c7Row], 1, 2⟩

/-- Witness: deleting the resource key soft-deletes its live row. -/
theorem delete_tags_spec_witness :
    ({ c7Row with deletedAt := some 7 } : ImageTagRow) ∈
      (deleteImageTag c7Store "Deployment" "web" "default" 7).imageTags :=
  (delete_tags_spec c7Store "Deployment" "web" "default" 7).1 c7Row (by decide) rfl rfl rfl rfl

/-- A changed new pod spec for the emitter witness. -/
def cexNew2 : PodSpec := ⟨[⟨"app", "nginx:1.20"⟩], []⟩

/-- Witness: a changed image list makes the emitter produce one UPDATE
event per container of the new spec. -/
theorem update_emission_amended_witness :
    updateEvents [] "Deployment" "web" "default" cexOldSpec cexNew2 5 =
      (cexNew2.containers ++ cexNew2.initContainers).map
        (eventOfContainer "UPDATE" "Deployment" "web" "default" 5) :=
  (update_emission_amended [] "Deployment" "web" "default" cexOldSpec cexNew2 5 rfl).2
    (by decide)

/-- Witness: a registry-with-port reference (two colons) parses with the
default tag. -/
theorem parse_multi_colon_witness :
    (parseImageFull "localhost:5000/app:v1").tag = "latest" :=
  (parse_multi_colon "localhost:5000/app:v1" (by decide)).1

end Kubetag
